import Mathlib

/-!
Shallow embedding of the two normalization pipelines of this repository:
`clean.py` (language-field normalizer) and `clean_skills.py` (skill
normalizer).  Strings are modelled as Lean `String`/`List Char`; Python's
regular-expression operations are modelled by executable matchers that
implement the semantics of the concrete patterns appearing in the source
(leftmost match, greedy quantifiers, ordered alternation, `re.sub`
replacing every non-overlapping occurrence scanning left to right).
Character-level operations (`str.lower`, `str.strip`, `\w`, `\s`, NFKD
ASCII folding) are modelled on the Basic-Latin and Latin-1 repertoire,
which covers every character class the source's patterns mention.
-/

/-- Python `\s` on the ASCII range (space, tab, newline, carriage return,
vertical tab, form feed); also the character set of `str.strip()`. -/
def isPySpace (c : Char) : Bool :=
  c = ' ' || c = '\t' || c = '\n' || c = '\r' || c = '\x0b' || c = '\x0c'

/-- The regex character class `[1-5]` from `clean.py`. -/
def isDigit15 (c : Char) : Bool :=
  c = '1' || c = '2' || c = '3' || c = '4' || c = '5'

/-- An ASCII upper-case letter `A`-`Z` (code points 65-90). -/
def isUpperA (c : Char) : Bool :=
  65 ≤ c.toNat && c.toNat ≤ 90

/-- Python `str.lower` on one character, for the Basic-Latin and Latin-1
repertoire: ASCII `A`-`Z` and Latin-1 upper-case letters (U+00C0-U+00DE
except the multiplication sign U+00D7) shift by 32; all else unchanged. -/
def pyLowerChar (c : Char) : Char :=
  if 65 ≤ c.toNat ∧ c.toNat ≤ 90 then Char.ofNat (c.toNat + 32)
  else if 192 ≤ c.toNat ∧ c.toNat ≤ 222 ∧ c.toNat ≠ 215 then Char.ofNat (c.toNat + 32)
  else c

/-- Python `str.upper` on one character (same repertoire as `pyLowerChar`). -/
def pyUpperChar (c : Char) : Char :=
  if 97 ≤ c.toNat ∧ c.toNat ≤ 122 then Char.ofNat (c.toNat - 32)
  else if 224 ≤ c.toNat ∧ c.toNat ≤ 254 ∧ c.toNat ≠ 247 then Char.ofNat (c.toNat - 32)
  else c

/-- Python `str.lower` over a character list. -/
def pyLowerL (l : List Char) : List Char := l.map pyLowerChar

/-- Python `str.upper` over a character list. -/
def pyUpperL (l : List Char) : List Char := l.map pyUpperChar

/-- Python `str.strip()`: drop whitespace from both ends. -/
def pyStrip (l : List Char) : List Char :=
  ((l.dropWhile isPySpace).reverse.dropWhile isPySpace).reverse

/-- Python `str.strip()` on a `String`. -/
def pyStripStr (s : String) : String := String.mk (pyStrip s.data)

/-- Python `str.split(',')`: split at every comma, keeping empty pieces. -/
def splitComma : List Char → List (List Char)
  | [] => [[]]
  | c :: t =>
    if c = ',' then [] :: splitComma t
    else
      match splitComma t with
      | h :: r => (c :: h) :: r
      | [] => [[c]]

/-- Drop a fixed token from the front of a list; `none` when the list does
not start with the token.  Models matching one literal alternative of a
regex alternation at the current position. -/
def stripTok : List Char → List Char → Option (List Char)
  | [], l => some l
  | _, [] => none
  | t :: ts, c :: cs => if c = t then stripTok ts cs else none

/-- The ordered alternation
`beginner|basic|intermediate|advance[d]?|a[1-5]` of `clean.py`'s hyphen,
comma and trailing-word patterns.  The greedy optional `[d]?` is expanded
into trying `advanced` before `advance`. -/
def tokenAlts : List (List Char) :=
  ["beginner".data, "basic".data, "intermediate".data, "advanced".data,
   "advance".data, "a1".data, "a2".data, "a3".data, "a4".data, "a5".data]

/-- Match the token alternation at the current position: first alternative
(in regex order) that is a leading segment of `l` wins.  Returns the
matched token and the remaining characters. -/
def matchTokAux : List (List Char) → List Char → Option (List Char × List Char)
  | [], _ => none
  | t :: ts, l =>
    match stripTok t l with
    | some r => some (t, r)
    | none => matchTokAux ts l

/-- Token alternation matcher used by the hyphen and comma patterns. -/
def matchTok (l : List Char) : Option (List Char × List Char) :=
  matchTokAux tokenAlts l

/-- Match the token alternation so that it consumes the whole remaining
input (the `$` anchor of the trailing-word pattern): an alternative only
succeeds when nothing follows it, mirroring regex backtracking across the
alternation. -/
def matchTokEndAux : List (List Char) → List Char → Option (List Char)
  | [], _ => none
  | t :: ts, l =>
    match stripTok t l with
    | some [] => some t
    | _ => matchTokEndAux ts l

/-- Anchored token alternation matcher for the trailing-word pattern. -/
def matchTokEnd (l : List Char) : Option (List Char) :=
  matchTokEndAux tokenAlts l

/-- Lazy group scan of `\((.*?)\)` after the opening parenthesis: capture
up to the first `)`, failing on a newline (`.` does not match `\n`).
Returns the captured group and the characters after the `)`. -/
def takeGroup : List Char → Option (List Char × List Char)
  | [] => none
  | c :: rest =>
    if c = ')' then some ([], rest)
    else if c = '\n' then none
    else (takeGroup rest).map (fun p => (c :: p.1, p.2))

/-- Match `\((.*?)\)` at the current position. -/
def matchParenAt : List Char → Option (List Char × List Char)
  | '(' :: rest => takeGroup rest
  | _ => none

/-- Match `- *(beginner|basic|intermediate|advance[d]?|a[1-5])` at the
current position: a hyphen, any number of spaces, then the token
alternation (no boundary after the token). -/
def matchHyphenAt : List Char → Option (List Char × List Char)
  | '-' :: rest => matchTok (rest.dropWhile (fun c => c = ' '))
  | _ => none

/-- Match `, *(beginner|basic|intermediate|advance[d]?|a[1-5])` at the
current position. -/
def matchCommaAt : List Char → Option (List Char × List Char)
  | ',' :: rest => matchTok (rest.dropWhile (fun c => c = ' '))
  | _ => none

/-- Match ` (beginner|basic|intermediate|advance[d]?|a[1-5])$` at the
current position: a literal space, a token, then the end of the string. -/
def matchEndAt : List Char → Option (List Char × List Char)
  | ' ' :: rest => (matchTokEnd rest).map (fun t => (t, []))
  | _ => none

/-- `re.search` semantics for a position matcher `m`: try `m` at every
position left to right; on the first success return the characters before
the match, the captured group, and the characters after the match. -/
def searchM (m : List Char → Option (List Char × List Char)) :
    List Char → Option (List Char × List Char × List Char)
  | [] => (m []).map (fun p => ([], p.1, p.2))
  | c :: t =>
    match m (c :: t) with
    | some (g, r) => some ([], g, r)
    | none => (searchM m t).map (fun p => (c :: p.1, p.2.1, p.2.2))

/-- `re.sub(pattern, '', s)` semantics: repeatedly remove the leftmost
match and continue scanning after it; the already-emitted part is never
rescanned.  `fuel` bounds the number of removals; every matcher used here
consumes at least one character per match, so fuel equal to the input
length is always sufficient. -/
def subAllFuel (m : List Char → Option (List Char × List Char)) :
    Nat → List Char → List Char
  | 0, l => l
  | fuel + 1, l =>
    match searchM m l with
    | some (pre, _, r) => pre ++ subAllFuel m fuel r
    | none => l

/-- The four proficiency patterns of `extract_proficiency_from_name`, in
the source's priority order. -/
inductive ProfPattern where
  | paren
  | hyphen
  | comma
  | trailing
deriving DecidableEq

/-- The position matcher of each pattern. -/
def patMatchAt : ProfPattern → List Char → Option (List Char × List Char)
  | .paren => matchParenAt
  | .hyphen => matchHyphenAt
  | .comma => matchCommaAt
  | .trailing => matchEndAt

/-- `re.search(pattern, s)` for one of the four patterns. -/
def patSearch (p : ProfPattern) (l : List Char) :
    Option (List Char × List Char × List Char) :=
  searchM (patMatchAt p) l

/-- `re.sub(pattern, '', s)` for one of the four patterns (removes every
non-overlapping occurrence, scanning left to right). -/
def patSubAll (p : ProfPattern) (l : List Char) : List Char :=
  subAllFuel (patMatchAt p) l.length l

/-- The `proficiency_patterns` list of `clean.py` (lines 82-87). -/
def proficiency_patterns : List ProfPattern :=
  [.paren, .hyphen, .comma, .trailing]

/-- The pattern loop of `extract_proficiency_from_name` (lines 93-99): try
each pattern in order; on the first match, remove every occurrence of that
pattern from the string, record the captured group, and stop. -/
def extractLoop : List ProfPattern → List Char → List Char × Option (List Char)
  | [], l => (l, none)
  | p :: ps, l =>
    match patSearch p l with
    | some (_, g, _) => (patSubAll p l, some g)
    | none => extractLoop ps l

/-- The regex `^a[1-5]$` of `normalize_proficiency` (line 48). -/
def a_level_match (l : List Char) : Bool :=
  match l with
  | ['a', d] => isDigit15 d
  | _ => false

/-- The `proficiency_mapping` dict of `clean.py` (lines 53-75). -/
def proficiency_mapping : List (String × String) :=
  [("beginner", "Beginner"), ("basic", "Beginner"), ("elementary", "Beginner"),
   ("novice", "Beginner"), ("fundamental", "Beginner"),
   ("intermediate", "Intermediate"), ("medium", "Intermediate"),
   ("mid", "Intermediate"), ("mid level", "Intermediate"),
   ("mid-level", "Intermediate"),
   ("advanced", "Advanced"), ("advance", "Advanced"), ("expert", "Advanced"),
   ("fluent", "Advanced"), ("proficient", "Advanced"),
   ("professional", "Advanced")]

/-- `normalize_proficiency` of `clean.py` (lines 39-77).  The argument is
`none` for Python `None`; an empty string is falsy and also yields `None`.
Otherwise the token is lower-cased and stripped, an `a1`-`a5` token is
upper-cased and returned, and any other token is looked up in the synonym
table (`dict.get` returns `None` on a miss). -/
def normalize_proficiency (p : Option String) : Option String :=
  match p with
  | none => none
  | some s =>
    if s = "" then none
    else
      let prof := pyStrip (pyLowerL s.data)
      if a_level_match prof then some (String.mk (pyUpperL prof))
      else List.lookup (String.mk prof) proficiency_mapping

/-- `extract_proficiency_from_name` of `clean.py` (lines 79-101): lower-case
and strip the candidate, run the pattern loop, strip the cleaned name, and
normalize the captured marker. -/
def extract_proficiency_from_name (s : String) : String × Option String :=
  let t := pyStrip (pyLowerL s.data)
  let r := extractLoop proficiency_patterns t
  (String.mk (pyStrip r.1), normalize_proficiency (r.2.map String.mk))

/-- The raw marker captured by the pattern loop of
`extract_proficiency_from_name`, before normalization (`match.group(1)` at
line 97); `none` when no pattern matched. -/
def extracted_marker (s : String) : Option String :=
  ((extractLoop proficiency_patterns (pyStrip (pyLowerL s.data))).2).map String.mk

/-- Match `\s+and\s+` at the current position (the separator regex of
line 129): one or more whitespace characters (greedy), the literal
lower-case `and`, then one or more whitespace characters (greedy).
Returns the characters after the separator. -/
def matchSepAt : List Char → Option (List Char)
  | [] => none
  | c :: rest =>
    if isPySpace c then
      match rest.dropWhile isPySpace with
      | 'a' :: 'n' :: 'd' :: d :: rest3 =>
        if isPySpace d then some (rest3.dropWhile isPySpace) else none
      | _ => none
    else none

/-- `re.split(r'\s+and\s+', s)` semantics: pieces between non-overlapping
leftmost separator matches.  `fuel` bounds the number of scanning steps;
every step consumes at least one character, so fuel equal to the input
length plus one is always sufficient. -/
def splitAndFuel : Nat → List Char → List Char → List (List Char)
  | 0, l, cur => [cur.reverse ++ l]
  | fuel + 1, l, cur =>
    match l with
    | [] => [cur.reverse]
    | c :: t =>
      match matchSepAt (c :: t) with
      | some r => cur.reverse :: splitAndFuel fuel r []
      | none => splitAndFuel fuel t (c :: cur)

/-- `re.split(r'\s+and\s+', s)`. -/
def pySplitAnd (l : List Char) : List (List Char) :=
  splitAndFuel (l.length + 1) l []

/-- Lines 125-130 of `clean.py`: split the raw language string on commas,
strip each fragment, split each fragment on the `and` separator, strip
each sub-fragment, and flatten in order (`initial_split` and
`final_languages`). -/
def atomic_candidates (s : String) : List String :=
  ((splitComma s.data).map pyStrip).flatMap
    (fun item => ((pySplitAnd item).map pyStrip).map String.mk)

/-- One element of a document's `languages` array, as a Python dict.
`language = none` models a dict without the `'language'` key and
`language = some none` models `'language': None`; likewise for
`proficiency`.  `extra` models any further keys of the dict, which the
cleanup never produces. -/
structure LangObj where
  language : Option (Option String)
  proficiency : Option (Option String)
  extra : List (String × String)
deriving DecidableEq

/-- Line 138 of `clean.py`: `lang_obj.get('proficiency')` (missing key and
`None` both give `None`). -/
def getProficiency (lo : LangObj) : Option String :=
  lo.proficiency.join

/-- Lines 136-138 of `clean.py`: the final proficiency is the (already
normalized) extracted marker unless that value is falsy (`None` or the
empty string), in which case the entry's own `proficiency` field is
normalized instead. -/
def final_proficiency (extracted : Option String) (ep : Option String) :
    Option String :=
  match extracted with
  | some v => if v = "" then normalize_proficiency ep else some v
  | none => normalize_proficiency ep

/-- Lines 114-144 of `clean.py`: build the `cleaned_languages` list for one
document.  Entries without a `'language'` key or with a falsy language
string are skipped; every surviving candidate is processed by
`extract_proficiency_from_name` and emitted when the cleaned name is
non-empty. -/
def cleaned_languages (entries : List LangObj) : List LangObj :=
  entries.flatMap (fun lo =>
    match lo.language with
    | none => []
    | some none => []
    | some (some s) =>
      if s = "" then []
      else
        (atomic_candidates s).flatMap (fun lang =>
          if lang = "" then []
          else
            let r := extract_proficiency_from_name lang
            let fp := final_proficiency r.2 (getProficiency lo)
            if r.1 = "" then []
            else [{ language := some (some (pyStripStr r.1)),
                    proficiency := some fp, extra := [] }]))

/-- A document as seen by `process_batch`: its identity and its
`languages` field (`none` models a document without that key). -/
structure Doc where
  id : Nat
  languages : Option (List LangObj)

/-- Lines 108-151 of `clean.py` for one document: the list of
`update_one` calls issued (each sets the whole `languages` array).  An
update is issued exactly when the cleaned list differs from the stored
one. -/
def process_doc (d : Doc) : List (Nat × List LangObj) :=
  match d.languages with
  | none => []
  | some ls =>
    if cleaned_languages ls = ls then [] else [(d.id, cleaned_languages ls)]

/-- `process_batch` of `clean.py` (lines 103-159), restricted to the
updates it issues (the model documents are well-shaped, so the
`except` path contributes no errors). -/
def process_batch (docs : List Doc) : List (Nat × List LangObj) :=
  docs.flatMap process_doc

/-- The outcome of calling a Python function: a returned value or an
uncaught exception. -/
inductive PyResult (α : Type) where
  | ret (a : α)
  | exn (msg : String)
deriving DecidableEq

/-- The result dict returned by `clean_languages` (only the fields the
claims mention). -/
structure RunResult where
  status : String
  total_updates : Option Nat
  error : Option String
deriving DecidableEq

/-- `clean_languages` of `clean.py` (lines 161-230), as a function of the
two failure points the claims are about: whether `MongoClient(db_uri)`
raises in the constructor (line 169, before `client` is bound) and whether
the processing body afterwards raises.  Returned alongside the result is
whether `client.close()` ran.  Python semantics modelled: the `finally`
block runs after the `except` block has produced a return value; if the
`try` raised before `client` was assigned, `client.close()` in `finally`
raises `UnboundLocalError`, and an exception raised in `finally` discards
the pending return value. -/
def clean_languages (connect : Except String Unit)
    (body : Except String (Nat × Nat)) : PyResult RunResult × Bool :=
  match connect with
  | .error _ =>
    (.exn "UnboundLocalError: local variable client referenced before assignment",
     false)
  | .ok _ =>
    match body with
    | .error e =>
      (.ret { status := "failed", total_updates := none, error := some e }, true)
    | .ok (updates, _) =>
      (.ret { status := "completed", total_updates := some updates,
              error := none }, true)

/-- The leading bullet/marker glyphs of `clean_skill_name` (line 25 of
`clean_skills.py`): the regex class also contains `\s`. -/
def isBulletChar (c : Char) : Bool :=
  isPySpace c || c = '•' || c = '-' || c = '*' || c = '+' || c = '>' ||
  c = '◦' || c = '‣' || c = '⁃' || c = '⦿' || c = '⦾' || c = '⁌' ||
  c = '⁍' || c = '⧫' || c = '⧪' || c = '⸰' || c = '▪' || c = '▫' ||
  c = '►' || c = '➢' || c = '➣' || c = '➤' || c = '·' || c = '⋄' ||
  c = '⬧' || c = '⬦' || c = '⬥' || c = '⭐' || c = '➜' || c = '➝' ||
  c = '➞' || c = '✦' || c = '✧' || c = '❋' || c = '❊' || c = '★' ||
  c = '☆' || c = '◆'

/-- `clean_skill_name` of `clean_skills.py` (lines 19-30): drop the leading
run of bullet glyphs (`^[...]+` with empty replacement), then strip. -/
def clean_skill_name (s : String) : String :=
  String.mk (pyStrip (s.data.dropWhile isBulletChar))

/-- A Latin-1 letter (U+00C0-U+00FF except the multiplication and division
signs), the part of Python's Unicode-aware `\w` beyond ASCII that this
model covers. -/
def isLatin1Letter (c : Char) : Bool :=
  192 ≤ c.toNat && c.toNat ≤ 255 && c.toNat ≠ 215 && c.toNat ≠ 247

/-- Python's `\w`: alphanumeric or underscore (Unicode-aware; modelled on
ASCII plus Latin-1 letters). -/
def pyIsWord (c : Char) : Bool :=
  c.isAlphanum || c = '_' || isLatin1Letter c

/-- Collapse every maximal run of whitespace to a single space character
(`re.sub(r'\s+', ' ', s)`). -/
def collapseWs : List Char → List Char
  | [] => []
  | [c] => if isPySpace c then [' '] else [c]
  | c :: d :: t =>
    if isPySpace c then
      if isPySpace d then collapseWs (d :: t) else ' ' :: collapseWs (d :: t)
    else c :: collapseWs (d :: t)

/-- The NFKD decompositions (base letter kept, combining accent dropped by
the ASCII encode) of the lower-case Latin-1 accented letters. -/
def latinFoldPairs : List (Char × Char) :=
  [('à', 'a'), ('á', 'a'), ('â', 'a'), ('ã', 'a'), ('ä', 'a'), ('å', 'a'),
   ('ç', 'c'), ('è', 'e'), ('é', 'e'), ('ê', 'e'), ('ë', 'e'),
   ('ì', 'i'), ('í', 'i'), ('î', 'i'), ('ï', 'i'), ('ñ', 'n'),
   ('ò', 'o'), ('ó', 'o'), ('ô', 'o'), ('õ', 'o'), ('ö', 'o'),
   ('ù', 'u'), ('ú', 'u'), ('û', 'u'), ('ü', 'u'), ('ý', 'y'), ('ÿ', 'y')]

/-- NFKD decomposition followed by `encode('ASCII', 'ignore')` on one
character: ASCII characters survive unchanged, Latin-1 accented letters
decompose to their ASCII base letter (the combining accent is dropped),
and characters with no ASCII decomposition are dropped entirely.
Modelled on the lower-case Latin-1 letters (the pipeline has already
lower-cased its input at this point). -/
def asciiFold (c : Char) : List Char :=
  if c.toNat < 128 then [c]
  else
    match List.lookup c latinFoldPairs with
    | some b => [b]
    | none => []

/-- `normalize_for_comparison` of `clean_skills.py` (lines 32-52):
lower-case, remove every character matching `[^\w\s]`, collapse whitespace
runs to single spaces, strip, then NFKD-decompose and keep only the
ASCII-representable characters. -/
def normalize_for_comparison (s : String) : String :=
  let l1 := pyLowerL s.data
  let l2 := l1.filter (fun c => pyIsWord c || isPySpace c)
  let l3 := collapseWs l2
  let l4 := pyStrip l3
  String.mk (l4.flatMap asciiFold)

/-- Modelled from the spec ("strip every character that is not
alphanumeric or whitespace"): identical to `normalize_for_comparison`
except that the removal step keeps only alphanumeric characters and
whitespace, so an underscore is stripped. -/
def normalize_for_comparison_spec (s : String) : String :=
  let l1 := pyLowerL s.data
  let l2 := l1.filter (fun c => c.isAlphanum || isLatin1Letter c || isPySpace c)
  let l3 := collapseWs l2
  let l4 := pyStrip l3
  String.mk (l4.flatMap asciiFold)

/-- `is_valid_skill` of `clean_skills.py` (lines 54-72), with the source's
branch order (the third branch is unreachable but kept for fidelity). -/
def is_valid_skill (skill normalized : String) : Bool :=
  if normalized = "" then false
  else if normalized.data.all Char.isDigit then false
  else if normalized.data.length = 0 ∧ 0 < skill.data.length then false
  else if normalized.data.length < 2 then false
  else true

/-- One step of the deduplication loop of `process_skills_file` (lines
95-107): state is (keys already seen, retained cleaned skills in
insertion order). -/
def skillStep (st : List String × List String) (raw : String) :
    List String × List String :=
  let c := clean_skill_name raw
  let n := normalize_for_comparison c
  if is_valid_skill c n then
    if st.1.contains n then st
    else (n :: st.1, st.2 ++ [c])
  else st

/-- The core of `process_skills_file` of `clean_skills.py` (lines 92-119):
clean, validate and deduplicate every row in order, then sort the retained
cleaned skills ascending (`cleaned_skills.sort()`; the retained strings
are pairwise distinct, so any correct sort yields Python's result). -/
def process_skills_file (rows : List String) : List String :=
  List.insertionSort (fun a b => a ≤ b) ((rows.foldl skillStep ([], [])).2)

/-- Remove exactly the leftmost match of a pattern (one occurrence). -/
def patSubFirst (p : ProfPattern) (l : List Char) : List Char :=
  match patSearch p l with
  | some (pre, _, r) => pre ++ r
  | none => l

/-- Modelled from the spec ("exactly the matched substring (one
occurrence) is removed"): the pattern loop with single-occurrence
removal. -/
def extractLoopSpec : List ProfPattern → List Char → List Char × Option (List Char)
  | [], l => (l, none)
  | p :: ps, l =>
    match patSearch p l with
    | some (_, g, _) => (patSubFirst p l, some g)
    | none => extractLoopSpec ps l

/-- Modelled from the spec: `extract_proficiency_from_name` as the claim
describes it, removing only the one matched occurrence of the first
matching pattern. -/
def extract_proficiency_spec (s : String) : String × Option String :=
  let t := pyStrip (pyLowerL s.data)
  let r := extractLoopSpec proficiency_patterns t
  (String.mk (pyStrip r.1), normalize_proficiency (r.2.map String.mk))

/-- The canonical proficiency values of the spec's data-model invariant. -/
def canonical_proficiencies : List String :=
  ["A1", "A2", "A3", "A4", "A5", "Beginner", "Intermediate", "Advanced"]

/-- The loop invariant of the deduplication pass of `process_skills_file`,
after the rows `pre` have been processed with state `st = (seen keys,
retained cleaned skills)`: the seen keys are exactly the keys of the
retained skills, retained keys are pairwise distinct, and a string is
retained exactly when it is valid and is the first cleaned form among the
processed rows bearing its key. -/
def skillInv (pre : List String) (st : List String × List String) : Prop :=
  (∀ n, n ∈ st.1 ↔ ∃ s ∈ st.2, normalize_for_comparison s = n) ∧
  (st.2.map normalize_for_comparison).Nodup ∧
  (∀ s, s ∈ st.2 ↔
    (is_valid_skill s (normalize_for_comparison s) = true ∧
     (pre.map clean_skill_name).find?
       (fun c => normalize_for_comparison c == normalize_for_comparison s) =
       some s))

theorem char_toNat_ofNat (n : Nat) (h : n < 55296) : (Char.ofNat n).toNat = n := by
  unfold Char.ofNat
  rw [dif_pos (Or.inl h)]
  rfl

theorem pyLowerChar_not_upper (c : Char) : isUpperA (pyLowerChar c) = false := by
  unfold pyLowerChar
  split_ifs with h1 h2
  · have hv : (Char.ofNat (c.toNat + 32)).toNat = c.toNat + 32 :=
      char_toNat_ofNat _ (by omega)
    simp only [isUpperA, hv]
    simp only [Bool.and_eq_false_iff, decide_eq_false_iff_not]
    omega
  · have hv : (Char.ofNat (c.toNat + 32)).toNat = c.toNat + 32 :=
      char_toNat_ofNat _ (by omega)
    simp only [isUpperA, hv]
    simp only [Bool.and_eq_false_iff, decide_eq_false_iff_not]
    omega
  · simp only [isUpperA]
    simp only [Bool.and_eq_false_iff, decide_eq_false_iff_not]
    omega

theorem pyLowerChar_eq_cases (c : Char) :
    pyLowerChar c = c ∨
    ((65 ≤ c.toNat ∧ c.toNat ≤ 90) ∨ (192 ≤ c.toNat ∧ c.toNat ≤ 222 ∧ c.toNat ≠ 215)) ∧
      pyLowerChar c = Char.ofNat (c.toNat + 32) := by
  unfold pyLowerChar
  split_ifs with h1 h2
  · exact Or.inr ⟨Or.inl h1, rfl⟩
  · exact Or.inr ⟨Or.inr h2, rfl⟩
  · exact Or.inl rfl

theorem pyLowerChar_idem (c : Char) : pyLowerChar (pyLowerChar c) = pyLowerChar c := by
  rcases pyLowerChar_eq_cases c with h | ⟨hr, h⟩
  · rw [h, h]
  · have hv : (Char.ofNat (c.toNat + 32)).toNat = c.toNat + 32 :=
      char_toNat_ofNat _ (by omega)
    rw [h]
    unfold pyLowerChar
    rw [hv, if_neg (by omega), if_neg (by omega)]

theorem mem_pyStrip {a : Char} {l : List Char} (h : a ∈ pyStrip l) : a ∈ l := by
  unfold pyStrip at h
  rw [List.mem_reverse] at h
  have h2 := (List.dropWhile_sublist isPySpace).mem h
  rw [List.mem_reverse] at h2
  exact (List.dropWhile_sublist isPySpace).mem h2

theorem stripTok_sublist :
    ∀ (t l r : List Char), stripTok t l = some r → r.Sublist l := by
  intro t
  induction t with
  | nil =>
    intro l r h
    simp only [stripTok] at h
    cases h
    exact List.Sublist.refl _
  | cons x xs ih =>
    intro l r h
    cases l with
    | nil => exact Option.noConfusion h
    | cons c cs =>
      simp only [stripTok] at h
      split_ifs at h
      exact List.Sublist.cons c (ih cs r h)

theorem matchTokAux_sublist :
    ∀ (ts : List (List Char)) (l g r : List Char),
      matchTokAux ts l = some (g, r) → r.Sublist l := by
  intro ts
  induction ts with
  | nil => intro l g r h; exact Option.noConfusion h
  | cons t ts ih =>
    intro l g r h
    simp only [matchTokAux] at h
    cases hs : stripTok t l with
    | some r2 =>
      rw [hs] at h
      cases h
      exact stripTok_sublist t l _ hs
    | none =>
      rw [hs] at h
      exact ih l g r h

theorem takeGroup_sublist :
    ∀ (l g r : List Char), takeGroup l = some (g, r) → r.Sublist l := by
  intro l
  induction l with
  | nil => intro g r h; exact Option.noConfusion h
  | cons c cs ih =>
    intro g r h
    unfold takeGroup at h
    split_ifs at h with hc hn
    · cases h
      exact List.sublist_cons_self c cs
    · cases hg : takeGroup cs with
      | some p =>
        rw [hg] at h
        simp only [Option.map_some'] at h
        cases h
        exact List.Sublist.cons c (ih p.1 p.2 (by rw [hg]))
      | none => rw [hg] at h; exact Option.noConfusion h

theorem matchParenAt_sublist (l g r : List Char)
    (h : matchParenAt l = some (g, r)) : r.Sublist l := by
  unfold matchParenAt at h
  split at h
  · exact List.Sublist.cons _ (takeGroup_sublist _ _ _ h)
  · exact Option.noConfusion h

theorem matchHyphenAt_sublist (l g r : List Char)
    (h : matchHyphenAt l = some (g, r)) : r.Sublist l := by
  unfold matchHyphenAt at h
  split at h
  · exact List.Sublist.cons _
      ((matchTokAux_sublist _ _ g r h).trans (List.dropWhile_sublist _))
  · exact Option.noConfusion h

theorem matchCommaAt_sublist (l g r : List Char)
    (h : matchCommaAt l = some (g, r)) : r.Sublist l := by
  unfold matchCommaAt at h
  split at h
  · exact List.Sublist.cons _
      ((matchTokAux_sublist _ _ g r h).trans (List.dropWhile_sublist _))
  · exact Option.noConfusion h

theorem matchEndAt_sublist (l g r : List Char)
    (h : matchEndAt l = some (g, r)) : r.Sublist l := by
  unfold matchEndAt at h
  split at h
  · rename_i rest
    cases hm : matchTokEnd rest with
    | some t =>
      rw [hm] at h
      simp only [Option.map_some'] at h
      cases h
      exact List.nil_sublist _
    | none => rw [hm] at h; exact Option.noConfusion h
  · exact Option.noConfusion h

theorem patMatchAt_sublist (p : ProfPattern) (l g r : List Char)
    (h : patMatchAt p l = some (g, r)) : r.Sublist l := by
  cases p with
  | paren => exact matchParenAt_sublist l g r h
  | hyphen => exact matchHyphenAt_sublist l g r h
  | comma => exact matchCommaAt_sublist l g r h
  | trailing => exact matchEndAt_sublist l g r h

theorem searchM_split (m : List Char → Option (List Char × List Char)) :
    ∀ (l pre g r : List Char), searchM m l = some (pre, g, r) →
      ∃ mid, l = pre ++ mid ∧ m mid = some (g, r) := by
  intro l
  induction l with
  | nil =>
    intro pre g r h
    simp only [searchM] at h
    cases hm : m [] with
    | some p =>
      rw [hm] at h
      simp only [Option.map_some'] at h
      cases h
      exact ⟨[], rfl, hm⟩
    | none => rw [hm] at h; exact Option.noConfusion h
  | cons c t ih =>
    intro pre g r h
    simp only [searchM] at h
    cases hm : m (c :: t) with
    | some p =>
      rw [hm] at h
      cases h
      exact ⟨c :: t, rfl, hm⟩
    | none =>
      rw [hm] at h
      cases hs : searchM m t with
      | some q =>
        rw [hs] at h
        simp only [Option.map_some'] at h
        cases h
        obtain ⟨mid, hmid, hm2⟩ := ih q.1 q.2.1 q.2.2 (by rw [hs])
        exact ⟨mid, by rw [hmid]; rfl, hm2⟩
      | none => rw [hs] at h; exact Option.noConfusion h

theorem subAllFuel_mem (m : List Char → Option (List Char × List Char))
    (hm : ∀ l g r, m l = some (g, r) → r.Sublist l) :
    ∀ (fuel : Nat) (l : List Char) (a : Char), a ∈ subAllFuel m fuel l → a ∈ l := by
  intro fuel
  induction fuel with
  | zero => intro l a h; exact h
  | succ fuel ih =>
    intro l a h
    simp only [subAllFuel] at h
    cases hs : searchM m l with
    | some p =>
      rw [hs] at h
      obtain ⟨mid, hmid, hm2⟩ := searchM_split m l p.1 p.2.1 p.2.2 (by rw [hs])
      rw [List.mem_append] at h
      rcases h with h | h
      · rw [hmid]; exact List.mem_append.mpr (Or.inl h)
      · have := (hm mid p.2.1 p.2.2 hm2).mem (ih _ _ h)
        rw [hmid]
        exact List.mem_append.mpr (Or.inr this)
    | none => rw [hs] at h; exact h

theorem patSubAll_mem (p : ProfPattern) (l : List Char) (a : Char)
    (h : a ∈ patSubAll p l) : a ∈ l :=
  subAllFuel_mem (patMatchAt p) (patMatchAt_sublist p) l.length l a h

theorem extractLoop_fst_mem :
    ∀ (ps : List ProfPattern) (l : List Char) (a : Char),
      a ∈ (extractLoop ps l).1 → a ∈ l := by
  intro ps
  induction ps with
  | nil => intro l a h; exact h
  | cons p ps ih =>
    intro l a h
    simp only [extractLoop] at h
    cases hs : patSearch p l with
    | some q =>
      rw [hs] at h
      exact patSubAll_mem p l a h
    | none =>
      rw [hs] at h
      exact ih l a h

theorem mem_pyLowerL_not_upper (l : List Char) (a : Char)
    (h : a ∈ pyLowerL l) : isUpperA a = false := by
  obtain ⟨b, _, hb⟩ := List.mem_map.mp h
  rw [← hb]
  exact pyLowerChar_not_upper b

theorem extract_name_not_upper (s : String) (a : Char)
    (h : a ∈ (extract_proficiency_from_name s).1.data) : isUpperA a = false := by
  have h1 : a ∈ (extractLoop proficiency_patterns (pyStrip (pyLowerL s.data))).1 := by
    simp only [extract_proficiency_from_name] at h
    exact mem_pyStrip h
  have h2 := extractLoop_fst_mem _ _ _ h1
  exact mem_pyLowerL_not_upper _ _ (mem_pyStrip h2)

theorem lookup_mem_values {α β : Type} [BEq α] [LawfulBEq α] :
    ∀ (l : List (α × β)) (k : α) (v : β),
      List.lookup k l = some v → v ∈ l.map Prod.snd := by
  intro l
  induction l with
  | nil => intro k v h; exact Option.noConfusion h
  | cons p ps ih =>
    intro k v h
    simp only [List.lookup] at h
    split at h
    · cases h
      exact List.mem_cons_self _ _
    · exact List.mem_cons_of_mem _ (ih k v h)

theorem a_level_shape (l : List Char) (h : a_level_match l = true) :
    ∃ d, l = ['a', d] ∧ isDigit15 d = true := by
  unfold a_level_match at h
  split at h
  · rename_i d
    exact ⟨d, rfl, h⟩
  · exact Bool.noConfusion h

theorem digit15_cases (d : Char) (h : isDigit15 d = true) :
    d = '1' ∨ d = '2' ∨ d = '3' ∨ d = '4' ∨ d = '5' := by
  simp only [isDigit15, Bool.or_eq_true, decide_eq_true_eq] at h
  tauto

theorem normalize_canonical (p : Option String) (v : String)
    (h : normalize_proficiency p = some v) : v ∈ canonical_proficiencies := by
  cases p with
  | none => exact Option.noConfusion h
  | some s =>
    simp only [normalize_proficiency] at h
    split_ifs at h with he ha
    · obtain ⟨d, hd, hdig⟩ := a_level_shape _ ha
      cases h
      rcases digit15_cases d hdig with h1 | h1 | h1 | h1 | h1 <;>
        (subst h1; rw [hd]; decide)
    · have := lookup_mem_values _ _ _ h
      have hv : v ∈ (["Beginner", "Beginner", "Beginner", "Beginner", "Beginner",
        "Intermediate", "Intermediate", "Intermediate", "Intermediate", "Intermediate",
        "Advanced", "Advanced", "Advanced", "Advanced", "Advanced", "Advanced"] :
          List String) := this
      simp only [List.mem_cons, List.not_mem_nil, or_false] at hv
      rcases hv with h1 | h1 | h1 | h1 | h1 | h1 | h1 | h1 | h1 | h1 | h1 | h1 | h1 |
        h1 | h1 | h1 <;> (subst h1; decide)

theorem normalize_ne_empty (p : Option String) :
    normalize_proficiency p ≠ some "" := by
  intro h
  have := normalize_canonical p "" h
  simp [canonical_proficiencies] at this

theorem pyStrip_eq_rdrop (l : List Char) :
    pyStrip l = List.rdropWhile isPySpace (List.dropWhile isPySpace l) := rfl

theorem drop_of_rdrop_drop (p : Char → Bool) (l : List Char) :
    List.dropWhile p (List.rdropWhile p (List.dropWhile p l)) =
      List.rdropWhile p (List.dropWhile p l) := by
  rw [List.dropWhile_eq_self_iff]
  intro hl
  obtain ⟨t, ht⟩ := List.rdropWhile_prefix p (List.dropWhile p l)
  have hlen : 0 < (List.dropWhile p l).length := by
    rw [← ht, List.length_append]
    omega
  have hnot := List.dropWhile_get_zero_not p l hlen
  have key : (List.rdropWhile p (List.dropWhile p l)).get ⟨0, hl⟩ =
      (List.dropWhile p l).get ⟨0, hlen⟩ := by
    simp only [List.get_eq_getElem]
    exact (List.rdropWhile_prefix p (List.dropWhile p l)).getElem hl
  rw [key]
  exact hnot

theorem pyStrip_idem (l : List Char) : pyStrip (pyStrip l) = pyStrip l := by
  rw [pyStrip_eq_rdrop l, pyStrip_eq_rdrop, drop_of_rdrop_drop,
    List.rdropWhile_idempotent]

theorem dropWhile_eq_self_of_all (p : Char → Bool) (l : List Char)
    (h : ∀ c ∈ l, p c = false) : List.dropWhile p l = l := by
  cases l with
  | nil => rfl
  | cons c t =>
    rw [List.dropWhile_cons, if_neg]
    simp [h c (List.mem_cons_self c t)]

theorem pyStrip_of_no_ws (l : List Char) (h : ∀ c ∈ l, isPySpace c = false) :
    pyStrip l = l := by
  unfold pyStrip
  rw [dropWhile_eq_self_of_all _ _ h, dropWhile_eq_self_of_all, List.reverse_reverse]
  intro c hc
  exact h c (List.mem_reverse.mp hc)

theorem splitComma_no_comma :
    ∀ (l : List Char), (∀ c ∈ l, c ≠ ',') → splitComma l = [l] := by
  intro l
  induction l with
  | nil => intro _; rfl
  | cons c t ih =>
    intro h
    simp only [splitComma]
    rw [if_neg (h c (List.mem_cons_self c t))]
    rw [ih (fun d hd => h d (List.mem_cons_of_mem c hd))]

theorem matchSepAt_not_ws (c : Char) (t : List Char) (hc : isPySpace c = false) :
    matchSepAt (c :: t) = none := by
  simp [matchSepAt, hc]

theorem splitAndFuel_succ_cons (n : Nat) (c : Char) (t cur : List Char) :
    splitAndFuel (n + 1) (c :: t) cur =
      (match matchSepAt (c :: t) with
       | some r => cur.reverse :: splitAndFuel n r []
       | none => splitAndFuel n t (c :: cur)) := rfl

theorem splitAndFuel_no_ws :
    ∀ (l : List Char), (∀ c ∈ l, isPySpace c = false) →
      ∀ (cur : List Char), splitAndFuel (l.length + 1) l cur = [cur.reverse ++ l] := by
  intro l
  induction l with
  | nil => intro _ cur; simp [splitAndFuel]
  | cons c t ih =>
    intro h cur
    have hstep : (c :: t).length + 1 = (t.length + 1) + 1 := by simp
    rw [hstep, splitAndFuel_succ_cons, matchSepAt_not_ws c t (h c (List.mem_cons_self c t))]
    show splitAndFuel (t.length + 1) t (c :: cur) = [cur.reverse ++ c :: t]
    rw [ih (fun d hd => h d (List.mem_cons_of_mem c hd)) (c :: cur)]
    simp

theorem pySplitAnd_no_ws (l : List Char) (h : ∀ c ∈ l, isPySpace c = false) :
    pySplitAnd l = [l] := by
  unfold pySplitAnd
  rw [splitAndFuel_no_ws l h []]
  simp

theorem string_mk_data (s : String) : String.mk s.data = s := rfl

theorem atomic_candidates_single (s : String)
    (h : ∀ c ∈ s.data, isPySpace c = false ∧ c ≠ ',') :
    atomic_candidates s = [s] := by
  unfold atomic_candidates
  rw [splitComma_no_comma s.data (fun c hc => (h c hc).2)]
  simp only [List.map_cons, List.map_nil]
  rw [pyStrip_of_no_ws s.data (fun c hc => (h c hc).1)]
  simp only [List.flatMap_cons, List.flatMap_nil, List.append_nil]
  rw [pySplitAnd_no_ws s.data (fun c hc => (h c hc).1)]
  simp only [List.map_cons, List.map_nil]
  rw [pyStrip_of_no_ws s.data (fun c hc => (h c hc).1)]

theorem cleaned_shape (entries : List LangObj) (e : LangObj)
    (h : e ∈ cleaned_languages entries) :
    ∃ lo ∈ entries, ∃ lang : String,
      e = ⟨some (some (pyStripStr (extract_proficiency_from_name lang).1)),
           some (final_proficiency (extract_proficiency_from_name lang).2
                   (getProficiency lo)), []⟩ ∧
      (extract_proficiency_from_name lang).1 ≠ "" := by
  unfold cleaned_languages at h
  rw [List.mem_flatMap] at h
  obtain ⟨lo, hlo, he⟩ := h
  refine ⟨lo, hlo, ?_⟩
  cases hl : lo.language with
  | none => rw [hl] at he; exact absurd he (List.not_mem_nil e)
  | some os =>
    cases os with
    | none => rw [hl] at he; exact absurd he (List.not_mem_nil e)
    | some s =>
      rw [hl] at he
      dsimp only [] at he
      split_ifs at he with hs
      · exact absurd he (List.not_mem_nil e)
      · rw [List.mem_flatMap] at he
        obtain ⟨lang, _, he2⟩ := he
        split_ifs at he2 with hle hne
        · exact absurd he2 (List.not_mem_nil e)
        · exact absurd he2 (List.not_mem_nil e)
        · rw [List.mem_singleton] at he2
          exact ⟨lang, he2, hne⟩

theorem string_data_mk (l : List Char) : (String.mk l).data = l := rfl

theorem extract_name_stripped (s : String) :
    pyStripStr (extract_proficiency_from_name s).1 =
      (extract_proficiency_from_name s).1 := by
  unfold pyStripStr extract_proficiency_from_name
  dsimp only []
  rw [string_data_mk, pyStrip_idem]

theorem pyLowerL_fix (l : List Char) (h : ∀ c ∈ l, pyLowerChar c = c) :
    pyLowerL l = l := by
  unfold pyLowerL
  rw [List.map_congr_left h]
  simp

theorem strip_lower_stable (x : List Char) :
    pyStrip (pyLowerL (pyStrip (pyLowerL x))) = pyStrip (pyLowerL x) := by
  have h1 : pyLowerL (pyStrip (pyLowerL x)) = pyStrip (pyLowerL x) := by
    apply pyLowerL_fix
    intro c hc
    obtain ⟨d, _, hd⟩ := List.mem_map.mp (mem_pyStrip hc)
    rw [← hd]
    exact pyLowerChar_idem d
  rw [h1, pyStrip_idem]

theorem extract_snd_eq (s : String) :
    (extract_proficiency_from_name s).2 =
      normalize_proficiency
        (((extractLoop proficiency_patterns (pyStrip (pyLowerL s.data))).2).map
          String.mk) := rfl

theorem extract_snd_canonical (s : String) (v : String)
    (h : (extract_proficiency_from_name s).2 = some v) :
    v ∈ canonical_proficiencies := by
  rw [extract_snd_eq] at h
  exact normalize_canonical _ _ h

theorem final_proficiency_canonical (s : String) (ep : Option String) :
    final_proficiency (extract_proficiency_from_name s).2 ep = none ∨
      ∃ c ∈ canonical_proficiencies,
        final_proficiency (extract_proficiency_from_name s).2 ep = some c := by
  unfold final_proficiency
  cases hv : (extract_proficiency_from_name s).2 with
  | none =>
    cases hnp : normalize_proficiency ep with
    | none => exact Or.inl rfl
    | some v => exact Or.inr ⟨v, normalize_canonical _ _ hnp, rfl⟩
  | some v =>
    have hc := extract_snd_canonical s v hv
    have hne : v ≠ "" := by
      intro hv0
      subst hv0
      simp [canonical_proficiencies] at hc
    dsimp only []
    rw [if_neg hne]
    exact Or.inr ⟨v, hc, rfl⟩

theorem np_case_fold (s : String) :
    normalize_proficiency (some s) =
      normalize_proficiency (some (String.mk (pyStrip (pyLowerL s.data)))) := by
  by_cases hs : s = ""
  · subst hs
    decide
  · by_cases hP : String.mk (pyStrip (pyLowerL s.data)) = ""
    · have hPl : pyStrip (pyLowerL s.data) = [] := congrArg String.data hP
      simp only [normalize_proficiency, hP, if_pos, if_true]
      rw [if_neg hs, hPl]
      decide
    · simp only [normalize_proficiency]
      rw [if_neg hs, if_neg hP, string_data_mk, strip_lower_stable]

theorem collapseWs_mem :
    ∀ (l : List Char) (c : Char), c ∈ collapseWs l →
      c = ' ' ∨ (c ∈ l ∧ isPySpace c = false) := by
  intro l
  induction l with
  | nil => intro c h; exact absurd h (List.not_mem_nil c)
  | cons a t ih =>
    intro c h
    cases t with
    | nil =>
      simp only [collapseWs] at h
      split_ifs at h with ha
      · rw [List.mem_singleton] at h
        exact Or.inl h
      · rw [List.mem_singleton] at h
        subst h
        exact Or.inr ⟨List.mem_cons_self _ _, Bool.eq_false_iff.mpr ha⟩
    | cons b t2 =>
      simp only [collapseWs] at h
      split_ifs at h with ha hb
      · rcases ih c h with h1 | ⟨h1, h2⟩
        · exact Or.inl h1
        · exact Or.inr ⟨List.mem_cons_of_mem a h1, h2⟩
      · rcases List.mem_cons.mp h with h1 | h1
        · exact Or.inl h1
        · rcases ih c h1 with h2 | ⟨h2, h3⟩
          · exact Or.inl h2
          · exact Or.inr ⟨List.mem_cons_of_mem a h2, h3⟩
      · rcases List.mem_cons.mp h with h1 | h1
        · subst h1
          exact Or.inr ⟨List.mem_cons_self _ _, Bool.eq_false_iff.mpr ha⟩
        · rcases ih c h1 with h2 | ⟨h2, h3⟩
          · exact Or.inl h2
          · exact Or.inr ⟨List.mem_cons_of_mem a h2, h3⟩

theorem asciiFold_chars (d c : Char) (h : c ∈ asciiFold d) :
    c.toNat < 128 ∧ (d.toNat < 128 → c = d) ∧
      (128 ≤ d.toNat → c.isAlphanum = true ∧ isUpperA c = false) := by
  unfold asciiFold at h
  split_ifs at h with hd
  · rw [List.mem_singleton] at h
    subst h
    exact ⟨hd, fun _ => rfl, fun hge => absurd hd (by omega)⟩
  · cases hl : List.lookup d latinFoldPairs with
    | some b =>
      rw [hl] at h
      rw [List.mem_singleton] at h
      subst h
      have hv := lookup_mem_values _ _ _ hl
      have hall : ∀ v ∈ latinFoldPairs.map Prod.snd,
          v.toNat < 128 ∧ v.isAlphanum = true ∧ isUpperA v = false := by decide
      obtain ⟨h1, h2, h3⟩ := hall _ hv
      exact ⟨h1, fun hlt => absurd hlt (by omega), fun _ => ⟨h2, h3⟩⟩
    | none => rw [hl] at h; exact absurd h (List.not_mem_nil c)

theorem nfc_chars (s : String) (c : Char)
    (h : c ∈ (normalize_for_comparison s).data) :
    (c.isAlphanum = true ∨ c = '_' ∨ c = ' ') ∧ c.toNat < 128 ∧
      isUpperA c = false := by
  unfold normalize_for_comparison at h
  dsimp only [] at h
  rw [string_data_mk, List.mem_flatMap] at h
  obtain ⟨d, hd, hc⟩ := h
  have hd3 := mem_pyStrip hd
  have hd2 := collapseWs_mem _ _ hd3
  obtain ⟨h128, hlt, hge⟩ := asciiFold_chars d c hc
  rcases hd2 with hsp | ⟨hdl2, hdns⟩
  · subst hsp
    have hcd : c = ' ' := hlt (by decide)
    subst hcd
    exact ⟨Or.inr (Or.inr rfl), by decide, by decide⟩
  · rw [List.mem_filter] at hdl2
    obtain ⟨hdl1, hdw⟩ := hdl2
    have hword : pyIsWord d = true := by
      rcases Bool.or_eq_true_iff.mp hdw with hw | hs
      · exact hw
      · rw [hs] at hdns
        exact absurd hdns (by simp)
    have hdnotup : isUpperA d = false := mem_pyLowerL_not_upper _ _ hdl1
    by_cases h128d : d.toNat < 128
    · have hcd := hlt h128d
      subst hcd
      refine ⟨?_, h128, hdnotup⟩
      simp only [pyIsWord, isLatin1Letter, Bool.or_eq_true, Bool.and_eq_true,
        decide_eq_true_eq] at hword
      rcases hword with (h1 | h1) | h1
      · exact Or.inl h1
      · exact Or.inr (Or.inl h1)
      · omega
    · obtain ⟨ha, hu⟩ := hge (by omega)
      exact ⟨Or.inl ha, h128, hu⟩

theorem string_data_nil (n : String) (h : n.data = []) : n = "" := by
  cases n
  simp_all

theorem is_valid_skill_key (a b n : String) :
    is_valid_skill a n = is_valid_skill b n := by
  unfold is_valid_skill
  by_cases hn : n = ""
  · rw [if_pos hn, if_pos hn]
  · rw [if_neg hn, if_neg hn]
    by_cases hd : n.data.all Char.isDigit
    · rw [if_pos hd, if_pos hd]
    · rw [if_neg hd, if_neg hd]
      have hlen : ¬n.data.length = 0 := by
        intro h0
        exact hn (string_data_nil n (List.length_eq_zero.mp h0))
      rw [if_neg (show ¬(n.data.length = 0 ∧ 0 < a.data.length) from
            fun hcon => hlen hcon.1),
          if_neg (show ¬(n.data.length = 0 ∧ 0 < b.data.length) from
            fun hcon => hlen hcon.1)]

theorem find?_singleton (p : String → Bool) (c : String) :
    List.find? p [c] = if p c then some c else none := by
  rw [List.find?_cons]
  cases hp : p c <;> simp [hp]

theorem skillStep_inv (pre : List String) (st : List String × List String)
    (raw : String) (h : skillInv pre st) :
    skillInv (pre ++ [raw]) (skillStep st raw) := by
  obtain ⟨h1, h2, h3⟩ := h
  have hmap : (pre ++ [raw]).map clean_skill_name =
      pre.map clean_skill_name ++ [clean_skill_name raw] := by
    simp
  simp only [skillStep]
  split_ifs with hval hcont
  · -- valid and key already seen: the state is unchanged
    refine ⟨h1, h2, ?_⟩
    intro s
    rw [h3 s]
    obtain ⟨s0, hs0, hkey⟩ := (h1 _).mp (List.elem_iff.mp hcont)
    constructor
    · rintro ⟨hv, hf⟩
      refine ⟨hv, ?_⟩
      rw [hmap, List.find?_append, hf]
      rfl
    · rintro ⟨hv, hf⟩
      rw [hmap, List.find?_append] at hf
      rcases Option.or_eq_some.mp hf with h4 | ⟨h4, h5⟩
      · exact ⟨hv, h4⟩
      · exfalso
        obtain ⟨hv0, hf0⟩ := (h3 s0).mp hs0
        have hsc : s = clean_skill_name raw := by
          have hmem := List.mem_of_find?_eq_some h5
          simpa using hmem
        have hps : normalize_for_comparison s = normalize_for_comparison s0 := by
          rw [hsc]
          exact hkey.symm
        simp only [hps] at h4
        rw [h4] at hf0
        exact Option.noConfusion hf0
  · -- valid and new key: the key is recorded and the skill appended
    have hcont' : normalize_for_comparison (clean_skill_name raw) ∉ st.1 :=
      fun hmem => hcont (List.elem_iff.mpr hmem)
    refine ⟨?_, ?_, ?_⟩
    · intro m
      constructor
      · intro hm
        rcases List.mem_cons.mp hm with hm | hm
        · exact ⟨clean_skill_name raw,
            List.mem_append_right _ (List.mem_singleton.mpr rfl), hm.symm⟩
        · obtain ⟨s0, hs0, hk⟩ := (h1 m).mp hm
          exact ⟨s0, List.mem_append_left _ hs0, hk⟩
      · rintro ⟨s0, hs0, hk⟩
        rcases List.mem_append.mp hs0 with hs0 | hs0
        · exact List.mem_cons_of_mem _ ((h1 m).mpr ⟨s0, hs0, hk⟩)
        · have hs0c : s0 = clean_skill_name raw := by simpa using hs0
          rw [hs0c] at hk
          rw [← hk]
          exact List.mem_cons_self _ _
    · rw [List.map_append]
      rw [List.nodup_append]
      refine ⟨h2, by simp, ?_⟩
      intro a ha ha2
      have hac : a = normalize_for_comparison (clean_skill_name raw) := by
        simpa using ha2
      subst hac
      obtain ⟨s0, hs0, hk⟩ := List.mem_map.mp ha
      exact hcont' ((h1 _).mpr ⟨s0, hs0, hk⟩)
    · intro s
      constructor
      · intro hs
        rcases List.mem_append.mp hs with hs | hs
        · obtain ⟨hv, hf⟩ := (h3 s).mp hs
          refine ⟨hv, ?_⟩
          rw [hmap, List.find?_append, hf]
          rfl
        · have hsc : s = clean_skill_name raw := by simpa using hs
          refine ⟨by rw [hsc]; exact hval, ?_⟩
          have hnone : (pre.map clean_skill_name).find?
              (fun x => normalize_for_comparison x == normalize_for_comparison s) =
              none := by
            cases hfx : (pre.map clean_skill_name).find?
                (fun x => normalize_for_comparison x ==
                  normalize_for_comparison s) with
            | none => rfl
            | some x =>
              exfalso
              have hpx : normalize_for_comparison x = normalize_for_comparison s := by
                have hpx0 := List.find?_some hfx
                simp only [beq_iff_eq] at hpx0
                exact hpx0
              have hvx : is_valid_skill x (normalize_for_comparison x) = true := by
                rw [hpx, is_valid_skill_key x s, hsc]
                exact hval
              have hxmem : x ∈ st.2 := (h3 x).mpr ⟨hvx, by simp only [hpx]; exact hfx⟩
              refine hcont' ((h1 _).mpr ⟨x, hxmem, ?_⟩)
              rw [hpx, hsc]
          have hpc : (normalize_for_comparison (clean_skill_name raw) ==
              normalize_for_comparison s) = true := by
            rw [hsc]
            simp
          rw [hmap, List.find?_append, hnone, find?_singleton, if_pos hpc, hsc]
          rfl
      · rintro ⟨hv, hf⟩
        rw [hmap, List.find?_append] at hf
        rcases Option.or_eq_some.mp hf with h4 | ⟨h4, h5⟩
        · exact List.mem_append_left _ ((h3 s).mpr ⟨hv, h4⟩)
        · have hsc : s = clean_skill_name raw := by
            have hmem := List.mem_of_find?_eq_some h5
            simpa using hmem
          rw [hsc]
          exact List.mem_append_right _ (List.mem_singleton.mpr rfl)
  · -- invalid: state unchanged
    refine ⟨h1, h2, ?_⟩
    intro s
    rw [h3 s]
    constructor
    · rintro ⟨hv, hf⟩
      refine ⟨hv, ?_⟩
      rw [hmap, List.find?_append, hf]
      rfl
    · rintro ⟨hv, hf⟩
      rw [hmap, List.find?_append] at hf
      rcases Option.or_eq_some.mp hf with h4 | ⟨h4, h5⟩
      · exact ⟨hv, h4⟩
      · exfalso
        have hsc : s = clean_skill_name raw := by
          have hmem := List.mem_of_find?_eq_some h5
          simpa using hmem
        rw [hsc] at hv
        exact hval hv

theorem skillInv_nil : skillInv [] ([], []) := by
  refine ⟨?_, ?_, ?_⟩
  · intro n
    simp
  · simp
  · intro s
    simp

theorem skillFold_inv :
    ∀ (rem pre : List String) (st : List String × List String),
      skillInv pre st → skillInv (pre ++ rem) (rem.foldl skillStep st) := by
  intro rem
  induction rem with
  | nil => intro pre st h; simpa using h
  | cons r t ih =>
    intro pre st h
    have hstep := skillStep_inv pre st r h
    have hrec := ih (pre ++ [r]) _ hstep
    rw [List.foldl_cons]
    have he : (pre ++ [r]) ++ t = pre ++ r :: t := by simp
    rw [he] at hrec
    exact hrec

/-- Claim C1, counterexample: for the entry `{language: "french (b2)",
proficiency: "fluent"}` a marker (`b2`) IS extracted by the parenthetical
pattern and its normalization is absent, yet the emitted proficiency is
`Advanced`, taken from the entry's separate proficiency field — so the
fallback is not restricted to the no-marker-extracted case. -/
theorem claim_C1_counterexample :
    extracted_marker "french (b2)" = some "b2" ∧
    normalize_proficiency (some "b2") = none ∧
    cleaned_languages [⟨some (some "french (b2)"), some (some "fluent"), []⟩] =
      [⟨some (some "french"), some (some "Advanced"), []⟩] := by
  refine ⟨by decide, by decide, by decide⟩

/-- Claim C1, amended: the emitted proficiency is the normalization of the
extracted marker when that normalization yields a value; the entry's
separate proficiency field is used as fallback whenever extraction yields
no normalized value — either because no pattern matched or because the
extracted marker is unrecognized. -/
theorem claim_C1_amended :
    (∀ (lang : String) (ep : Option String),
      final_proficiency (extract_proficiency_from_name lang).2 ep =
        match (extract_proficiency_from_name lang).2 with
        | some v => some v
        | none => normalize_proficiency ep) ∧
    final_proficiency (extract_proficiency_from_name "french (b2)").2
      (some "fluent") = some "Advanced" := by
  constructor
  · intro lang ep
    cases hv : (extract_proficiency_from_name lang).2 with
    | none => rfl
    | some v =>
      have hvc := extract_snd_canonical lang v hv
      have hvne : v ≠ "" := by
        intro h0
        subst h0
        simp [canonical_proficiencies] at hvc
      simp only [final_proficiency]
      rw [if_neg hvne]
  · decide

/-- Claim C2, code bug: when the store constructor raises (for example on
the malformed URI the repository itself ships as default), the variable
`client` is never bound, so the `finally` block's `client.close()` raises
`UnboundLocalError`; that exception discards the pending
`{status: failed}` return value and nothing is closed — contradicting the
claim that a result object is always returned and the connection always
released.  When connecting succeeds, the function does return a
completed/failed result and closes the connection. -/
theorem claim_C2_bug :
    clean_languages (Except.error "InvalidURI") (Except.ok (0, 0)) =
      (PyResult.exn
        "UnboundLocalError: local variable client referenced before assignment",
       false) ∧
    (∀ body : Except String (Nat × Nat),
      (clean_languages (Except.ok ()) body).2 = true) := by
  constructor
  · rfl
  · intro body
    cases body with
    | error e => rfl
    | ok p =>
      obtain ⟨u, er⟩ := p
      rfl

/-- Claim C3, counterexample: the split on the connective `and` is
case-sensitive (`re.split(r'\s+and\s+', ...)` carries no IGNORECASE
flag), so `"English AND French"` stays a single atomic candidate while
`"English and French"` is split in two. -/
theorem claim_C3_counterexample :
    atomic_candidates "English and French" = ["English", "French"] ∧
    atomic_candidates "English AND French" = ["English AND French"] ∧
    atomic_candidates "English AND French" ≠ ["English", "French"] := by
  refine ⟨by decide, by decide, by decide⟩

/-- Claim C3, amended: the split on the connective word `and` requires
surrounding whitespace but is case-sensitive: only the lower-case spelling
acts as a connective.  A fragment with no whitespace and no comma is
always a single atomic candidate. -/
theorem claim_C3_amended :
    (∀ s : String, (∀ c ∈ s.data, isPySpace c = false ∧ c ≠ ',') →
      atomic_candidates s = [s]) ∧
    atomic_candidates "English and French" = ["English", "French"] ∧
    atomic_candidates "English AND French" = ["English AND French"] := by
  exact ⟨atomic_candidates_single, by decide, by decide⟩

/-- Claim C3, witness: the amended theorem applied at a concrete input. -/
theorem claim_C3_witness : atomic_candidates "English" = ["English"] :=
  claim_C3_amended.1 "English" (by decide)

/-- Claim C4, counterexample: on `"french (a1) (a2)"` the code removes
BOTH parenthesized occurrences of the first matching pattern (`re.sub`
replaces every occurrence), yielding `"french"`, while removing exactly
the one matched substring (as the claim states) would yield
`"french  (a2)"`. -/
theorem claim_C4_counterexample :
    extract_proficiency_from_name "french (a1) (a2)" = ("french", some "A1") ∧
    extract_proficiency_spec "french (a1) (a2)" = ("french  (a2)", some "A1") ∧
    (extract_proficiency_from_name "french (a1) (a2)").1 ≠
      (extract_proficiency_spec "french (a1) (a2)").1 := by
  refine ⟨by decide, by decide, by decide⟩

/-- Claim C4, amended: for every non-empty atomic candidate the four
patterns are tried in the priority order parenthetical, hyphen, comma,
trailing word; only the first matching pattern is applied, and EVERY
occurrence of that pattern (not just the matched one) is removed from the
candidate to produce the cleaned language name. -/
theorem claim_C4_amended (s : String) :
    (∀ pre g r, patSearch .paren (pyStrip (pyLowerL s.data)) = some (pre, g, r) →
      extract_proficiency_from_name s =
        (String.mk (pyStrip (patSubAll .paren (pyStrip (pyLowerL s.data)))),
         normalize_proficiency (some (String.mk g)))) ∧
    (patSearch .paren (pyStrip (pyLowerL s.data)) = none →
      ∀ pre g r, patSearch .hyphen (pyStrip (pyLowerL s.data)) = some (pre, g, r) →
      extract_proficiency_from_name s =
        (String.mk (pyStrip (patSubAll .hyphen (pyStrip (pyLowerL s.data)))),
         normalize_proficiency (some (String.mk g)))) ∧
    (patSearch .paren (pyStrip (pyLowerL s.data)) = none →
      patSearch .hyphen (pyStrip (pyLowerL s.data)) = none →
      ∀ pre g r, patSearch .comma (pyStrip (pyLowerL s.data)) = some (pre, g, r) →
      extract_proficiency_from_name s =
        (String.mk (pyStrip (patSubAll .comma (pyStrip (pyLowerL s.data)))),
         normalize_proficiency (some (String.mk g)))) ∧
    (patSearch .paren (pyStrip (pyLowerL s.data)) = none →
      patSearch .hyphen (pyStrip (pyLowerL s.data)) = none →
      patSearch .comma (pyStrip (pyLowerL s.data)) = none →
      ∀ pre g r, patSearch .trailing (pyStrip (pyLowerL s.data)) = some (pre, g, r) →
      extract_proficiency_from_name s =
        (String.mk (pyStrip (patSubAll .trailing (pyStrip (pyLowerL s.data)))),
         normalize_proficiency (some (String.mk g)))) ∧
    (patSearch .paren (pyStrip (pyLowerL s.data)) = none →
      patSearch .hyphen (pyStrip (pyLowerL s.data)) = none →
      patSearch .comma (pyStrip (pyLowerL s.data)) = none →
      patSearch .trailing (pyStrip (pyLowerL s.data)) = none →
      extract_proficiency_from_name s =
        (String.mk (pyStrip (pyStrip (pyLowerL s.data))), none)) := by
  refine ⟨?_, ?_, ?_, ?_, ?_⟩
  · intro pre g r h
    simp only [extract_proficiency_from_name, proficiency_patterns, extractLoop,
      h, Option.map_some']
  · intro h1 pre g r h
    simp only [extract_proficiency_from_name, proficiency_patterns, extractLoop,
      h1, h, Option.map_some']
  · intro h1 h2 pre g r h
    simp only [extract_proficiency_from_name, proficiency_patterns, extractLoop,
      h1, h2, h, Option.map_some']
  · intro h1 h2 h3 pre g r h
    simp only [extract_proficiency_from_name, proficiency_patterns, extractLoop,
      h1, h2, h3, h, Option.map_some']
  · intro h1 h2 h3 h4
    simp only [extract_proficiency_from_name, proficiency_patterns, extractLoop,
      h1, h2, h3, h4, Option.map_none']
    rfl

/-- Claim C4, witness: the amended theorem applied at a concrete input
whose hyphen pattern matches. -/
theorem claim_C4_witness :
    extract_proficiency_from_name "spanish - advanced" =
      ("spanish", some "Advanced") := by
  have h := (claim_C4_amended "spanish - advanced").2.1 (by decide)
    "spanish ".data "advanced".data [] (by decide)
  rw [h]
  decide

/-- Claim C5, counterexample: on the candidate `"english (x) advanced"`
the parenthetical pattern matches first and is removed, but the emitted
language name `"english  advanced"` still matches the trailing-word
pattern — so emitted names are not free of embedded proficiency
markers. -/
theorem claim_C5_counterexample :
    cleaned_languages [⟨some (some "english (x) advanced"), some none, []⟩] =
      [⟨some (some "english  advanced"), some none, []⟩] ∧
    patSearch .trailing ("english  advanced".data) =
      some ("english ".data, "advanced".data, []) := by
  refine ⟨by decide, by decide⟩

/-- Claim C5, amended: every emitted entry has a non-empty language name
and exactly the `language`/`proficiency` keys, and its proficiency is
either null or one of the canonical values `A1`-`A5`, `Beginner`,
`Intermediate`, `Advanced`; the language name, however, may still match
one of the four extraction patterns (only the occurrences of the first
matching pattern are removed). -/
theorem claim_C5_amended (entries : List LangObj) (e : LangObj)
    (h : e ∈ cleaned_languages entries) :
    (∃ n : String, e.language = some (some n) ∧ n ≠ "") ∧
    e.extra = [] ∧
    (∃ p : Option String, e.proficiency = some p ∧
      (p = none ∨ ∃ c ∈ canonical_proficiencies, p = some c)) := by
  obtain ⟨lo, hlo, lang, he, hne⟩ := cleaned_shape entries e h
  subst he
  refine ⟨⟨_, rfl, ?_⟩, rfl, ⟨_, rfl, ?_⟩⟩
  · rw [extract_name_stripped]
    exact hne
  · rcases final_proficiency_canonical lang (getProficiency lo) with h1 | ⟨c, hc, h1⟩
    · exact Or.inl h1
    · exact Or.inr ⟨c, hc, h1⟩

/-- Claim C5, witness: the amended theorem applied to the entry emitted
for `"english (x) advanced"`. -/
theorem claim_C5_witness :
    (∃ n : String,
      (LangObj.mk (some (some "english  advanced")) (some none) []).language =
        some (some n) ∧ n ≠ "") ∧
    (LangObj.mk (some (some "english  advanced")) (some none) []).extra = [] ∧
    (∃ p : Option String,
      (LangObj.mk (some (some "english  advanced")) (some none) []).proficiency =
        some p ∧ (p = none ∨ ∃ c ∈ canonical_proficiencies, p = some c)) :=
  claim_C5_amended [⟨some (some "english (x) advanced"), some none, []⟩] _
    (by decide)

/-- Claim C6, counterexample: Python's `\w` includes the underscore, so
the comparison key of `"a_b"` is `"a_b"`, not `"ab"` as the claim's
"strip every character that is not alphanumeric or whitespace"
prescribes. -/
theorem claim_C6_counterexample :
    normalize_for_comparison "a_b" = "a_b" ∧
    normalize_for_comparison_spec "a_b" = "ab" ∧
    normalize_for_comparison "a_b" ≠ "ab" := by
  refine ⟨by decide, by decide, by decide⟩

/-- Claim C6, amended: the comparison key is obtained by lowercasing,
stripping every character that is not a word character (alphanumeric or
underscore) or whitespace — so an underscore is kept — collapsing
whitespace runs, trimming, and ASCII-folding diacritics; `"Café"` yields
`"cafe"`, and every key character is a plain-ASCII lower-or-caseless word
character or space. -/
theorem claim_C6_amended :
    normalize_for_comparison "Café" = "cafe" ∧
    normalize_for_comparison "CAFE " = "cafe" ∧
    normalize_for_comparison "a_b" = "a_b" ∧
    (∀ (s : String), ∀ c ∈ (normalize_for_comparison s).data,
      (c.isAlphanum = true ∨ c = '_' ∨ c = ' ') ∧ c.toNat < 128 ∧
        isUpperA c = false) := by
  exact ⟨by decide, by decide, by decide, nfc_chars⟩

/-- Claim C6, witness: the amended theorem's character invariant applied
at a concrete key character. -/
theorem claim_C6_witness :
    (('o' : Char).isAlphanum = true ∨ ('o' : Char) = '_' ∨ ('o' : Char) = ' ') ∧
    ('o' : Char).toNat < 128 ∧ isUpperA 'o' = false :=
  claim_C6_amended.2.2.2 "ok" 'o' (by decide)

/-- Claim C7 (confirmed): the output of the skill pipeline is sorted
ascending by the cleaned display form, contains pairwise-distinct
normalized keys (so exactly one entry per key), and a string is in the
output exactly when it is a valid cleaned skill and is the first cleaned
form, in input order, bearing its normalized key. -/
theorem claim_C7 (rows : List String) :
    List.Sorted (fun a b => a ≤ b) (process_skills_file rows) ∧
    ((process_skills_file rows).map normalize_for_comparison).Nodup ∧
    (∀ s : String, s ∈ process_skills_file rows ↔
      (is_valid_skill s (normalize_for_comparison s) = true ∧
       (rows.map clean_skill_name).find?
         (fun c => normalize_for_comparison c == normalize_for_comparison s) =
         some s)) := by
  have hinv := skillFold_inv rows [] ([], []) skillInv_nil
  rw [List.nil_append] at hinv
  obtain ⟨h1, h2, h3⟩ := hinv
  unfold process_skills_file
  refine ⟨List.sorted_insertionSort _ _, ?_, ?_⟩
  · have hperm :=
      ((List.perm_insertionSort (fun a b : String => a ≤ b)
        ((rows.foldl skillStep ([], [])).2)).map normalize_for_comparison)
    exact hperm.nodup_iff.mpr h2
  · intro s
    rw [List.mem_insertionSort]
    exact h3 s

/-- Claim C8 (confirmed): a record is rewritten exactly when its cleaned
language sequence differs, by structural value, from the stored one; an
untouched record receives no update and a dirty record receives exactly
one update replacing the whole array. -/
theorem claim_C8 (d : Doc) (ls : List LangObj) (h : d.languages = some ls) :
    (cleaned_languages ls = ls → process_doc d = []) ∧
    (cleaned_languages ls ≠ ls → process_doc d = [(d.id, cleaned_languages ls)]) := by
  unfold process_doc
  rw [h]
  dsimp only []
  constructor
  · intro he
    rw [if_pos he]
  · intro he
    rw [if_neg he]

/-- Claim C8, witness: a record whose single entry is already in
normalized form receives no update. -/
theorem claim_C8_witness :
    process_doc ⟨7, some [⟨some (some "french"), some none, []⟩]⟩ = [] :=
  (claim_C8 ⟨7, some [⟨some (some "french"), some none, []⟩]⟩ _ rfl).1 (by decide)

/-- Claim C9 (confirmed): proficiency normalization case-folds and trims
its input, maps `a` + digit 1-5 to the uppercased form, maps every
synonym-table spelling to its canonical word, and yields absent for every
other token. -/
theorem claim_C9 :
    (∀ s : String,
      a_level_match (pyStrip (pyLowerL s.data)) = false →
      List.lookup (String.mk (pyStrip (pyLowerL s.data))) proficiency_mapping =
        none →
      normalize_proficiency (some s) = none) ∧
    (∀ s : String, normalize_proficiency (some s) =
      normalize_proficiency (some (String.mk (pyStrip (pyLowerL s.data))))) ∧
    (normalize_proficiency (some "a1") = some "A1" ∧
     normalize_proficiency (some "a2") = some "A2" ∧
     normalize_proficiency (some "a3") = some "A3" ∧
     normalize_proficiency (some "a4") = some "A4" ∧
     normalize_proficiency (some "a5") = some "A5" ∧
     normalize_proficiency (some " A3 ") = some "A3" ∧
     normalize_proficiency (some "a7") = none ∧
     normalize_proficiency (some "a0") = none ∧
     normalize_proficiency (some "b2") = none ∧
     normalize_proficiency none = none ∧
     normalize_proficiency (some "") = none) ∧
    (normalize_proficiency (some "beginner") = some "Beginner" ∧
     normalize_proficiency (some "basic") = some "Beginner" ∧
     normalize_proficiency (some "elementary") = some "Beginner" ∧
     normalize_proficiency (some "novice") = some "Beginner" ∧
     normalize_proficiency (some "fundamental") = some "Beginner" ∧
     normalize_proficiency (some "intermediate") = some "Intermediate" ∧
     normalize_proficiency (some "medium") = some "Intermediate" ∧
     normalize_proficiency (some "mid") = some "Intermediate" ∧
     normalize_proficiency (some "mid level") = some "Intermediate" ∧
     normalize_proficiency (some "mid-level") = some "Intermediate" ∧
     normalize_proficiency (some "advanced") = some "Advanced" ∧
     normalize_proficiency (some "advance") = some "Advanced" ∧
     normalize_proficiency (some "expert") = some "Advanced" ∧
     normalize_proficiency (some "fluent") = some "Advanced" ∧
     normalize_proficiency (some "proficient") = some "Advanced" ∧
     normalize_proficiency (some "professional") = some "Advanced") := by
  refine ⟨?_, np_case_fold, by decide, by decide⟩
  intro s h1 h2
  simp only [normalize_proficiency]
  split_ifs with hs ha
  · rfl
  · exact absurd ha (by simp [h1])
  · exact h2

/-- Claim C9, witness: the unrecognized-token clause applied at `b2`. -/
theorem claim_C9_witness : normalize_proficiency (some "b2") = none :=
  claim_C9.1 "b2" (by decide) (by decide)

/-- Claim C10 (confirmed): every emitted language name is fully lower-case
(it contains no ASCII upper-case letter, because extraction lower-cases
the whole candidate before cleaning); consequently a record whose stored
languages contain an upper-case letter in some language name can never
equal its cleaned sequence and is always rewritten. -/
theorem claim_C10 :
    (∀ (entries : List LangObj) (e : LangObj), e ∈ cleaned_languages entries →
      ∀ (n : String), e.language = some (some n) →
      ∀ c ∈ n.data, isUpperA c = false) ∧
    (∀ (d : Doc) (ls : List LangObj) (lo : LangObj) (n : String),
      d.languages = some ls → lo ∈ ls → lo.language = some (some n) →
      (∃ c ∈ n.data, isUpperA c = true) →
      process_doc d = [(d.id, cleaned_languages ls)]) := by
  have main : ∀ (entries : List LangObj) (e : LangObj),
      e ∈ cleaned_languages entries →
      ∀ (n : String), e.language = some (some n) →
      ∀ c ∈ n.data, isUpperA c = false := by
    intro entries e he n hn c hc
    obtain ⟨lo, hlo, lang, heq, hne⟩ := cleaned_shape entries e he
    subst heq
    have hn2 : pyStripStr (extract_proficiency_from_name lang).1 = n := by
      simpa using hn
    subst hn2
    exact extract_name_not_upper lang c (mem_pyStrip hc)
  refine ⟨main, ?_⟩
  intro d ls lo n hd hlo hln hex
  obtain ⟨c, hc, hcu⟩ := hex
  have hne : ¬cleaned_languages ls = ls := by
    intro heq
    have hlo2 : lo ∈ cleaned_languages ls := by
      rw [heq]
      exact hlo
    have hfalse := main ls lo hlo2 n hln c hc
    rw [hcu] at hfalse
    exact Bool.noConfusion hfalse
  unfold process_doc
  rw [hd]
  dsimp only []
  rw [if_neg hne]

/-- Claim C10, witness: a record whose language name `French` carries an
upper-case letter is rewritten. -/
theorem claim_C10_witness :
    process_doc ⟨3, some [⟨some (some "French"), some none, []⟩]⟩ =
      [(3, cleaned_languages [⟨some (some "French"), some none, []⟩])] :=
  claim_C10.2 ⟨3, some [⟨some (some "French"), some none, []⟩]⟩
    [⟨some (some "French"), some none, []⟩]
    ⟨some (some "French"), some none, []⟩ "French"
    rfl (by decide) rfl ⟨'F', by decide, by decide⟩

/-- Every pattern match consumes at least one character, so in
`patSubAll` a fuel budget equal to the input length covers every
removal. -/
theorem patMatchAt_consumes (p : ProfPattern) (l g r : List Char)
    (h : patMatchAt p l = some (g, r)) : r.length < l.length := by
  cases p with
  | paren =>
    have h2 : matchParenAt l = some (g, r) := h
    unfold matchParenAt at h2
    split at h2
    · rename_i rest
      have h1 := (takeGroup_sublist _ _ _ h2).length_le
      simp only [List.length_cons]
      omega
    · exact Option.noConfusion h2
  | hyphen =>
    have h2 : matchHyphenAt l = some (g, r) := h
    unfold matchHyphenAt at h2
    split at h2
    · rename_i rest
      have h1 := (matchTokAux_sublist _ _ _ _ h2).length_le
      have h3 := (@List.dropWhile_sublist Char rest (fun c => c = ' ')).length_le
      simp only [List.length_cons]
      omega
    · exact Option.noConfusion h2
  | comma =>
    have h2 : matchCommaAt l = some (g, r) := h
    unfold matchCommaAt at h2
    split at h2
    · rename_i rest
      have h1 := (matchTokAux_sublist _ _ _ _ h2).length_le
      have h3 := (@List.dropWhile_sublist Char rest (fun c => c = ' ')).length_le
      simp only [List.length_cons]
      omega
    · exact Option.noConfusion h2
  | trailing =>
    have h2 : matchEndAt l = some (g, r) := h
    unfold matchEndAt at h2
    split at h2
    · rename_i rest
      cases hm : matchTokEnd rest with
      | some t =>
        rw [hm] at h2
        simp only [Option.map_some'] at h2
        cases h2
        simp
      | none => rw [hm] at h2; exact Option.noConfusion h2
    · exact Option.noConfusion h2

/-- The `and` separator consumes at least one character, so in
`pySplitAnd` a fuel budget of the input length plus one covers every
scanning step. -/
theorem matchSepAt_consumes (l r : List Char) (h : matchSepAt l = some r) :
    r.length < l.length := by
  unfold matchSepAt at h
  cases l with
  | nil => exact Option.noConfusion h
  | cons c rest =>
    dsimp only [] at h
    split_ifs at h with hc
    split at h
    · rename_i d rest3 heq
      split_ifs at h with hd
      cases h
      have h1 := (@List.dropWhile_sublist Char rest3 isPySpace).length_le
      have h2 : (List.dropWhile isPySpace rest).length ≤ rest.length :=
        (@List.dropWhile_sublist Char rest isPySpace).length_le
      have h4 : rest3.length + 4 ≤ rest.length := by
        rw [heq] at h2
        simp only [List.length_cons] at h2
        omega
      simp only [List.length_cons]
      omega
    · exact Option.noConfusion h
